import Mathlib

/-!
Verification of the SKS reconciliation peer (`sks/recon.go`).

The Go source is shallowly embedded: pure helpers become Lean functions,
the stateful methods become explicit state-passing functions, and the
external collaborators (the conflux reconciliation engine, the HTTP
transport, the store) are represented by explicit parameters or by models
written from the specification where noted in doc comments.

Conventions:
- `time.Time` values are modelled as `Int` (a signed count of seconds);
  `time.Hour` is 3600 and 24 hours is 86400.
- Byte strings are `List Nat` with each entry `< 256`.
- Engine elements (`cf.Zp` over `P_SKS`) are `Nat` values `< P_SKS`,
  with a little-endian byte representation.
- Errors (`error` values) are modelled as `Option String` / `Except String`.
-/

namespace SksRecon

/-! ## Statistics tracker (`LoadStat`, `LoadStatMap`, `Stats`) -/

/-- Model of `LoadStat`: two counters for one time bucket (recon.go). -/
structure LoadStat where
  Inserted : Nat
  Updated : Nat
deriving DecidableEq, Repr

/-- The kind of a `storage.KeyChange`: tagged as added or replaced
(the closed two-variant sum stated in the spec). -/
inductive KeyChangeKind
  | added
  | replaced
deriving DecidableEq, Repr

/-- A `storage.KeyChange`: its kind together with the results of its
`InsertDigests()` and `RemoveDigests()` accessors. -/
structure KeyChange where
  kind : KeyChangeKind
  insertDigests : List String
  removeDigests : List String

/-- Model of `LoadStatMap`: a mapping from a bucket timestamp to its `LoadStat`,
modelled extensionally as a partial function (Go map semantics). -/
def LoadStatMap : Type := Int → Option LoadStat

/-- Model of `LoadStatMap.update` (recon.go): fetch the bucket at `t`, creating a
zero bucket if absent, and bump `Inserted` for an added key or `Updated`
for a replaced key. -/
def lsmUpdate (m : LoadStatMap) (t : Int) (kc : KeyChangeKind) : LoadStatMap :=
  fun k =>
    if k = t then
      let ls := (m t).getD { Inserted := 0, Updated := 0 }
      some (match kc with
        | .added => { ls with Inserted := ls.Inserted + 1 }
        | .replaced => { ls with Updated := ls.Updated + 1 })
    else m k

/-- Model of `Stats`: total plus the hourly and daily bucket maps.  The Go mutex
disappears in this sequential model. -/
structure Stats where
  Total : Nat
  Hourly : LoadStatMap
  Daily : LoadStatMap

/-- Model of `newStats` (recon.go): empty maps, zero total. -/
def newStats : Stats :=
  { Total := 0, Hourly := fun _ => none, Daily := fun _ => none }

/-- Model of `time.Truncate` for a positive duration `d`: round `t` down to a
multiple of `d` (Go rounds toward the zero time). -/
def truncTime (d t : Int) : Int := t - Int.emod t d

/-- Model of `Stats.prune` (recon.go): delete hourly buckets whose key is before
`now − 24h` and daily buckets whose key is before `now − 7·24h`.
In Go, `time.Before` is a strict comparison. -/
def statsPrune (s : Stats) (now : Int) : Stats :=
  let yesterday := now - 24 * 3600
  let lastWeek := now - 24 * 7 * 3600
  { s with
    Hourly := fun k => if k < yesterday then none else s.Hourly k
    Daily := fun k => if k < lastWeek then none else s.Daily k }

/-- Model of `Stats.update` (recon.go): bump the hourly bucket at `now` truncated
to the hour and the daily bucket at `now` truncated to the day, then
increment `Total` for an added or replaced key. -/
def statsUpdate (s : Stats) (now : Int) (kc : KeyChangeKind) : Stats :=
  { Total :=
      match kc with
      | .added => s.Total + 1
      | .replaced => s.Total + 1
    Hourly := lsmUpdate s.Hourly (truncTime 3600 now) kc
    Daily := lsmUpdate s.Daily (truncTime (24 * 3600) now) kc }

/-- Model of `Peer.loadStats` (recon.go), with the two effectful inputs made
explicit: `decoded` is the snapshot decoded from the stats file (`none`
when the file is missing, unreadable, or fails to decode, in which case
the fresh `newStats` value is kept), and `rootSize` is the result of
`ptree.Root()` followed by `root.Size()` (`none` when `Root` errored, in
which case only a warning is logged).  On success the root size
overwrites the persisted total. -/
def loadStats (decoded : Option Stats) (rootSize : Option Nat) : Stats :=
  let stats := decoded.getD newStats
  match rootSize with
  | none => stats
  | some n => { stats with Total := n }

/-! ## Shutdown sequence (`Peer.Stop`) -/

/-- The four teardown steps of `Peer.Stop`, in source order. -/
inductive StopStep
  | killWait
  | peerStop
  | ptreeClose
  | saveStats
deriving DecidableEq, Repr

/-- Append an error to the log when one occurred (`log.Error...` calls in
`Stop`); a `none` outcome logs nothing. -/
def logErr (lg : List String) (err : Option String) : List String :=
  match err with
  | none => lg
  | some e => lg ++ [e]

/-- Model of `Peer.Stop` (recon.go) as a trace: `waitErr` is the outcome of
`t.Kill(nil); t.Wait()`, `peerStopErr` of `peer.Stop()`, `closeErr` of
`ptree.Close()`.  Each step appends itself to the executed-step trace and
logs its error; no outcome causes an early return, and `saveStats` logs
internally and returns nothing. -/
def Stop (waitErr peerStopErr closeErr : Option String) :
    List StopStep × List String :=
  let steps := [StopStep.killWait]
  let lg := logErr [] waitErr
  let steps := steps ++ [StopStep.peerStop]
  let lg := logErr lg peerStopErr
  let steps := steps ++ [StopStep.ptreeClose]
  let lg := logErr lg closeErr
  let steps := steps ++ [StopStep.saveStats]
  (steps, lg)

/-! ## Digest codec (`DigestZp`) -/

/-- Value of one hexadecimal digit, as in the Go `encoding/hex.fromHexChar` helper:
digits, lowercase and uppercase letters are accepted. -/
def hexDigitVal (c : Char) : Option Nat :=
  if '0' ≤ c ∧ c ≤ '9' then some (c.toNat - '0'.toNat)
  else if 'a' ≤ c ∧ c ≤ 'f' then some (c.toNat - 'a'.toNat + 10)
  else if 'A' ≤ c ∧ c ≤ 'F' then some (c.toNat - 'A'.toNat + 10)
  else none

/-- The Go `hex.DecodeString` on a character list: bytes are decoded from
pairs of hex digits, high nibble first; an odd-length input or a non-hex
character is an error (`none`). -/
def hexDecodeList : List Char → Option (List Nat)
  | [] => some []
  | [_] => none
  | hi :: lo :: rest => do
    let h ← hexDigitVal hi
    let l ← hexDigitVal lo
    let bs ← hexDecodeList rest
    pure ((16 * h + l) :: bs)

/-- The Go `hex.DecodeString` on a string. -/
def hexDecodeString (s : String) : Option (List Nat) :=
  hexDecodeList s.data

/-- Modelled from the spec: the arithmetic modulus of the
reconciliation engine, `cf.P_SKS` (not under `src/`) — a 129-bit prime, so that full
reconciliation elements are 17 bytes wide and hash-query elements one
byte narrower. -/
def P_SKS : Nat := 530512889551602322505127520352579437339

/-- Modelled from the spec: the full element width of the protocol in bytes
(`length_of(P_SKS)`, per the comment in `requestChunk`). -/
def sksZpNbytes : Nat := 17

/-- Modelled from the spec: `recon.PadSksElement` (not under `src/`) —
extend a byte string with zero bytes to the full element width.  The
padding bytes are insignificant in the little-endian representation. -/
def padSksElement (b : List Nat) : List Nat :=
  b ++ List.replicate (sksZpNbytes - b.length) 0

/-- Modelled from the spec: the numeric value of a little-endian byte
string, used by `cf.Zb` to build an element of the engine arithmetic
domain (reduction modulo the prime happens in `zbValue`). -/
def leVal (b : List Nat) : Nat := Nat.ofDigits 256 b

/-- Modelled from the spec: `cf.Zb(P_SKS, buf)` (not under `src/`) — the
element of the arithmetic domain of the engine whose little-endian byte string
is `buf`. -/
def zbValue (buf : List Nat) : Nat := leVal buf % P_SKS

/-- Modelled from the spec: `(*cf.Zp).Bytes()` (not under `src/`) — the
minimal little-endian byte representation of the value of an element. -/
def zpBytes (z : Nat) : List Nat := Nat.digits 256 z

/-- Model of `DigestZp` (recon.go): hex-decode the digest (a malformed-digest
error if not valid hexadecimal), pad to the full element width, and build
the numeric element. -/
def DigestZp (digest : String) : Except String Nat :=
  match hexDecodeString digest with
  | none => .error "encoding hex: invalid input"
  | some buf => .ok (zbValue (padSksElement buf))

/-! ## Digest update pipeline (`Peer.updateDigests`) -/

/-- One call into the reconciliation engine made by `updateDigests`:
`peer.Insert(z)` or `peer.Remove(z)`. -/
inductive EngineOp
  | insert (z : Nat)
  | remove (z : Nat)
deriving DecidableEq, Repr

/-- One `for _, digest := range ...` loop body of `updateDigests`: decode
each digest in order and emit the engine call for it; on the first decode
failure stop and return the `bad digest` error, leaving the calls already
made in place. -/
def applyDigests (mk : Nat → EngineOp) : List String → List EngineOp × Option String
  | [] => ([], none)
  | d :: ds =>
    match DigestZp d with
    | .error _ => ([], some ("bad digest " ++ d))
    | .ok z =>
      let r := applyDigests mk ds
      (mk z :: r.1, r.2)

/-- `Peer.updateDigests` (recon.go): update the stats for the change,
then insert every decoded insert digest and remove every decoded remove
digest, returning at the first decode failure.  The result carries the
stats value after the call, the trace of engine calls made, and the
returned error. -/
def updateDigests (now : Int) (stats : Stats) (change : KeyChange) :
    Stats × List EngineOp × Option String :=
  let stats := statsUpdate stats now change.kind
  let ins := applyDigests EngineOp.insert change.insertDigests
  match ins.2 with
  | some e => (stats, ins.1, some e)
  | none =>
    let rem := applyDigests EngineOp.remove change.removeDigests
    (stats, ins.1 ++ rem.1, rem.2)

/-! ## Recovery processor (`handleRecovery`, `requestRecovered`,
`requestChunk`) -/

/-- Model of `requestChunkSize` (recon.go). -/
def requestChunkSize : Nat := 100

/-- A `recon.Recover` event: the ordered list of digests that the remote
peer has and the local peer lacks (`RemoteElements`, elements of the domain of the engine). -/
structure Recover where
  remoteElements : List Nat
deriving DecidableEq, Repr

/-- The error folding of the loop body of `Peer.requestRecovered` (recon.go):
a failed round-trip error is kept as the result error if none is recorded
yet (`errgo.Mask`), and otherwise appended to the recorded one
(`errgo.Notef`, with the details flattened into the message). -/
def combineErr (resultErr : Option String) (err : Option String) : Option String :=
  match err with
  | none => resultErr
  | some e =>
    match resultErr with
    | none => some e
    | some prev => some (prev ++ "; " ++ e)

/-- The `for len(items) > 0` loop of `Peer.requestRecovered` (recon.go):
take a chunk of at most `requestChunkSize` leading elements, issue the
round-trip for it, fold its error into the accumulated `resultErr`, and
continue with the rest.  The network round-trip `requestChunk` is an
oracle `rc` giving the outcome of the `k`-th issued request; the result
carries the trace of issued chunks together with the final error. -/
def requestRecoveredLoop (rc : Nat → List Nat → Option String) :
    Nat → List Nat → Option String → List (List Nat) × Option String
  | _, [], resultErr => ([], resultErr)
  | k, x :: xs, resultErr =>
    let chunksize := min requestChunkSize (x :: xs).length
    let chunk := (x :: xs).take chunksize
    let rest := (x :: xs).drop chunksize
    let resultErr2 := combineErr resultErr (rc k chunk)
    let r := requestRecoveredLoop rc (k + 1) rest resultErr2
    (chunk :: r.1, r.2)
termination_by _ items _ => items.length
decreasing_by
  simp only [List.length_drop]
  have h2 : 0 < min requestChunkSize (x :: xs).length := by
    refine Nat.lt_min.mpr ⟨?_, ?_⟩ <;> simp [requestChunkSize]
  omega

/-- Model of `Peer.requestRecovered` (recon.go): run the chunking loop over the
remote elements of the event, starting with no accumulated error. -/
def requestRecovered (rc : Nat → List Nat → Option String)
    (rcvr : Recover) : List (List Nat) × Option String :=
  requestRecoveredLoop rc 0 rcvr.remoteElements none

/-- Model of `Peer.handleRecovery` (recon.go): the recovery loop, run over a
finite schedule of `Recover` events followed by the dying signal of the tomb.
Each received event is passed to `requestRecovered`, whose result is
discarded; on the dying signal the loop returns `nil`.  The result
carries the trace of events processed and the error the loop returned. -/
def handleRecovery (rc : Nat → List Nat → Option String) :
    List Recover → List Recover × Option String
  | [] => ([], none)
  | rcvr :: rest =>
    let _discarded := requestRecovered rc rcvr
    let t := handleRecovery rc rest
    (rcvr :: t.1, t.2)

/-- The request-encoding part of `Peer.requestChunk` (recon.go): write
the element count, then for each element of the chunk its byte form
padded to the full element width, truncated by one trailing byte, and
framed by its length.  `writeInt` is `recon.WriteInt`, the opaque integer framing
primitive of the engine (not under `src/`), kept abstract. -/
def requestChunkBody (writeInt : Nat → List Nat) (chunk : List Nat) : List Nat :=
  let hqBuf := writeInt chunk.length
  chunk.foldl
    (fun buf z =>
      let zb := zpBytes z
      let zb := padSksElement zb
      let zb := zb.dropLast
      buf ++ writeInt zb.length ++ zb)
    hqBuf

/-! ## Helper lemmas about byte strings and digits -/

theorem foldl_frame_eq (writeInt : Nat → List Nat) :
    ∀ (l : List Nat) (acc : List Nat),
      List.foldl
        (fun buf z =>
          buf ++ writeInt ((padSksElement (zpBytes z)).dropLast).length ++
            (padSksElement (zpBytes z)).dropLast)
        acc l =
      acc ++ (l.map (fun z =>
        writeInt ((padSksElement (zpBytes z)).dropLast).length ++
          (padSksElement (zpBytes z)).dropLast)).flatten := by
  intro l
  induction l with
  | nil => intro acc; simp
  | cons a l ih =>
    intro acc
    simp only [List.foldl_cons, List.map_cons, List.flatten_cons, ih]
    simp [List.append_assoc]

theorem digits256_length_le (n w : Nat) (h : n < 256 ^ w) :
    (Nat.digits 256 n).length ≤ w := by
  rcases Nat.eq_zero_or_pos n with h0 | h0
  · simp [h0]
  · by_contra hlt
    push_neg at hlt
    have h1 : (256 : ℕ) ^ (Nat.digits 256 n).length ≤ 256 * n :=
      Nat.base_pow_length_digits_le 256 n (by norm_num) (Nat.pos_iff_ne_zero.mp h0)
    have h2 : (256 : ℕ) ^ (w + 1) ≤ 256 ^ (Nat.digits 256 n).length :=
      Nat.pow_le_pow_right (by norm_num) hlt
    have h4 : (256 : ℕ) ^ (w + 1) = 256 * 256 ^ w := by ring
    omega

theorem padSksElement_length (b : List Nat) (h : b.length ≤ sksZpNbytes) :
    (padSksElement b).length = sksZpNbytes := by
  simp only [padSksElement, List.length_append, List.length_replicate]
  omega

theorem hexDigitVal_lt (c : Char) (v : Nat) (h : hexDigitVal c = some v) : v < 16 := by
  simp only [hexDigitVal] at h
  split_ifs at h with h1 h2 h3 <;> injection h with h0 <;> subst h0
  · obtain ⟨ha, hb⟩ := h1
    rw [Char.le_def, UInt32.le_def, BitVec.le_def] at ha hb
    have ha2 : 48 ≤ c.toNat := ha
    have hb2 : c.toNat ≤ 57 := hb
    have hc : ('0').toNat = 48 := rfl
    omega
  · obtain ⟨ha, hb⟩ := h2
    rw [Char.le_def, UInt32.le_def, BitVec.le_def] at ha hb
    have ha2 : 97 ≤ c.toNat := ha
    have hb2 : c.toNat ≤ 102 := hb
    have hc : ('a').toNat = 97 := rfl
    omega
  · obtain ⟨ha, hb⟩ := h3
    rw [Char.le_def, UInt32.le_def, BitVec.le_def] at ha hb
    have ha2 : 65 ≤ c.toNat := ha
    have hb2 : c.toNat ≤ 70 := hb
    have hc : ('A').toNat = 65 := rfl
    omega

theorem hexDecodeList_bytes_lt :
    ∀ (cs : List Char) (b : List Nat), hexDecodeList cs = some b → ∀ x ∈ b, x < 256 := by
  intro cs
  induction cs using hexDecodeList.induct with
  | case1 =>
    intro b h x hx
    simp only [hexDecodeList] at h
    injection h with h0
    subst h0
    simp at hx
  | case2 c =>
    intro b h x hx
    simp only [hexDecodeList] at h
    exact absurd h (by simp)
  | case3 hi lo rest ih =>
    intro b h x hx
    simp only [hexDecodeList] at h
    cases hh : hexDigitVal hi with
    | none => rw [hh] at h; exact absurd h (by simp)
    | some hv =>
      cases hl : hexDigitVal lo with
      | none => rw [hh, hl] at h; exact absurd h (by simp)
      | some lv =>
        cases hr : hexDecodeList rest with
        | none => rw [hh, hl, hr] at h; exact absurd h (by simp)
        | some bs =>
          rw [hh, hl, hr] at h
          simp only [Option.bind_some, Option.pure_def] at h
          injection h with h0
          subst h0
          rcases List.mem_cons.mp hx with hx0 | hxs
          · have hv16 := hexDigitVal_lt hi hv hh
            have lv16 := hexDigitVal_lt lo lv hl
            omega
          · exact ih bs hr x hxs

theorem ofDigits_replicate_zero (k : Nat) :
    Nat.ofDigits 256 (List.replicate k 0) = 0 := by
  induction k with
  | zero => simp
  | succ k ih => simp [List.replicate_succ, Nat.ofDigits_cons, ih]

theorem leVal_pad (b : List Nat) : leVal (padSksElement b) = leVal b := by
  simp [leVal, padSksElement, Nat.ofDigits_append, ofDigits_replicate_zero]

theorem padSksElement_bytes_lt (b : List Nat) (hb : ∀ x ∈ b, x < 256) :
    ∀ x ∈ padSksElement b, x < 256 := by
  intro x hx
  rcases List.mem_append.mp hx with h | h
  · exact hb x h
  · have := List.eq_of_mem_replicate h
    omega

theorem ofDigits256_inj_of_length_eq :
    ∀ (xs ys : List Nat), xs.length = ys.length →
      (∀ x ∈ xs, x < 256) → (∀ y ∈ ys, y < 256) →
      Nat.ofDigits 256 xs = Nat.ofDigits 256 ys → xs = ys := by
  intro xs
  induction xs with
  | nil =>
    intro ys hlen _ _ _
    cases ys with
    | nil => rfl
    | cons y ys => simp at hlen
  | cons x xs ih =>
    intro ys hlen hx hy hv
    cases ys with
    | nil => simp at hlen
    | cons y ys =>
      rw [Nat.ofDigits_cons, Nat.ofDigits_cons] at hv
      have hx0 : x < 256 := hx x (by simp)
      have hy0 : y < 256 := hy y (by simp)
      have hxy : x = y ∧ Nat.ofDigits 256 xs = Nat.ofDigits 256 ys := by
        constructor <;> omega
      rw [hxy.1, ih ys (by simpa using hlen) (fun a ha => hx a (by simp [ha]))
        (fun a ha => hy a (by simp [ha])) hxy.2]

theorem dropWhile_append_of_all {α : Type} (p : α → Bool) (l1 l2 : List α)
    (h : l1.all p = true) : (l1 ++ l2).dropWhile p = l2.dropWhile p := by
  induction l1 with
  | nil => simp
  | cons d ds ih =>
    rw [List.all_cons, Bool.and_eq_true] at h
    simp [List.dropWhile_cons, h.1, ih h.2]

theorem dropWhile_append_of_not_all {α : Type} (p : α → Bool) (l1 l2 : List α)
    (h : l1.all p = false) : (l1 ++ l2).dropWhile p = l1.dropWhile p ++ l2 := by
  induction l1 with
  | nil => simp at h
  | cons d ds ih =>
    cases hp : p d with
    | true =>
      rw [List.all_cons, hp, Bool.true_and] at h
      simp [List.dropWhile_cons, hp, ih h]
    | false => simp [List.dropWhile_cons, hp]

theorem dropWhile_ne_nil_of_not_all {α : Type} (p : α → Bool) (l : List α)
    (h : l.all p = false) : l.dropWhile p ≠ [] := by
  induction l with
  | nil => simp at h
  | cons d ds ih =>
    cases hp : p d with
    | true =>
      rw [List.all_cons, hp, Bool.true_and] at h
      simpa [List.dropWhile_cons, hp] using ih h
    | false => simp [List.dropWhile_cons, hp]

theorem headD_append_of_ne_nil {α : Type} (l1 l2 : List α) (a : α)
    (h : l1 ≠ []) : (l1 ++ l2).headD a = l1.headD a := by
  cases l1 with
  | nil => exact absurd rfl h
  | cons x xs => rfl

theorem takeWhile_eq_self_of_all {α : Type} (p : α → Bool) (l : List α)
    (h : l.all p = true) : l.takeWhile p = l := by
  induction l with
  | nil => rfl
  | cons d ds ih =>
    rw [List.all_cons, Bool.and_eq_true] at h
    simp [List.takeWhile_cons, h.1, ih h.2]

theorem exceptIsOk_ok (z : Nat) : (Except.ok z : Except String Nat).isOk = true := rfl

theorem exceptIsOk_error (e : String) :
    (Except.error e : Except String Nat).isOk = false := rfl

theorem exceptToOption_ok (z : Nat) :
    (Except.ok z : Except String Nat).toOption = some z := rfl

theorem applyDigests_spec (mk : Nat → EngineOp) (ds : List String) :
    applyDigests mk ds =
      ((ds.takeWhile fun d => (DigestZp d).isOk).map
        (fun d => mk ((DigestZp d).toOption.getD 0)),
       if ds.all (fun d => (DigestZp d).isOk) then none
       else some ("bad digest " ++
         ((ds.dropWhile fun d => (DigestZp d).isOk).headD ""))) := by
  induction ds with
  | nil => simp [applyDigests]
  | cons d ds ih =>
    cases h : DigestZp d with
    | error e =>
      simp [applyDigests, h, List.takeWhile_cons, List.dropWhile_cons, List.all_cons,
        exceptIsOk_error]
    | ok z =>
      simp [applyDigests, h, ih, List.takeWhile_cons, List.dropWhile_cons,
        List.all_cons, exceptIsOk_ok, exceptToOption_ok]

/-! ## Helper lemmas about the chunking loop -/

theorem requestRecoveredLoop_trace_spec :
    ∀ (n : Nat) (items : List Nat), items.length ≤ n →
    ∀ (rc : Nat → List Nat → Option String) (k : Nat) (e : Option String),
      ((requestRecoveredLoop rc k items e).1.flatten = items) ∧
      ((requestRecoveredLoop rc k items e).1.length = (items.length + 99) / 100) ∧
      (∀ i, i < (requestRecoveredLoop rc k items e).1.length →
        ((requestRecoveredLoop rc k items e).1.getD i []).length =
          min 100 (items.length - 100 * i)) := by
  intro n
  induction n with
  | zero =>
    intro items h rc k e
    have hnil : items = [] := List.length_eq_zero.mp (Nat.le_zero.mp h)
    subst hnil
    simp [requestRecoveredLoop]
  | succ n ih =>
    intro items h rc k e
    cases items with
    | nil => simp [requestRecoveredLoop]
    | cons x xs =>
      simp only [requestRecoveredLoop]
      have hrest : ((x :: xs).drop (min requestChunkSize (x :: xs).length)).length ≤ n := by
        simp only [List.length_drop, requestChunkSize]
        simp only [List.length_cons] at h ⊢
        omega
      obtain ⟨ihf, ihl, ihg⟩ :=
        ih ((x :: xs).drop (min requestChunkSize (x :: xs).length)) hrest rc (k + 1)
          (combineErr e (rc k ((x :: xs).take (min requestChunkSize (x :: xs).length))))
      refine ⟨?_, ?_, ?_⟩
      · rw [List.flatten_cons, ihf, List.take_append_drop]
      · rw [List.length_cons, ihl]
        simp only [List.length_drop, List.length_cons, requestChunkSize]
        omega
      · intro i hi
        cases i with
        | zero =>
          simp only [List.getD_cons_zero, List.length_take, List.length_cons, requestChunkSize]
          omega
        | succ j =>
          simp only [List.getD_cons_succ]
          simp only [List.length_cons] at hi
          have hj : j < (requestRecoveredLoop rc (k + 1)
              ((x :: xs).drop (min requestChunkSize (x :: xs).length))
              (combineErr e (rc k
                ((x :: xs).take (min requestChunkSize (x :: xs).length))))).1.length :=
            Nat.lt_of_succ_lt_succ hi
          rw [ihg j hj]
          have h1 : ((x :: xs).drop (min requestChunkSize (x :: xs).length)).length
              = (x :: xs).length - min requestChunkSize (x :: xs).length :=
            List.length_drop _ _
          rw [h1]
          simp only [requestChunkSize, List.length_cons]
          omega

theorem requestRecoveredLoop_err_spec :
    ∀ (n : Nat) (items : List Nat), items.length ≤ n →
    ∀ (rc : Nat → List Nat → Option String) (k : Nat) (e : Option String),
      ((requestRecoveredLoop rc k items e).2 = none ↔
        (e = none ∧ ∀ i, i < (requestRecoveredLoop rc k items e).1.length →
          rc (k + i) ((requestRecoveredLoop rc k items e).1.getD i []) = none)) := by
  intro n
  induction n with
  | zero =>
    intro items h rc k e
    have hnil : items = [] := List.length_eq_zero.mp (Nat.le_zero.mp h)
    subst hnil
    simp [requestRecoveredLoop]
  | succ n ih =>
    intro items h rc k e
    cases items with
    | nil => simp [requestRecoveredLoop]
    | cons x xs =>
      simp only [requestRecoveredLoop]
      have hrest : ((x :: xs).drop (min requestChunkSize (x :: xs).length)).length ≤ n := by
        simp only [List.length_drop, requestChunkSize]
        simp only [List.length_cons] at h ⊢
        omega
      have ihe := ih _ hrest rc (k + 1)
        (combineErr e (rc k ((x :: xs).take (min requestChunkSize (x :: xs).length))))
      cases hrc : rc k ((x :: xs).take (min requestChunkSize (x :: xs).length)) with
      | none =>
        rw [hrc] at ihe
        have hce : combineErr e none = e := by cases e <;> rfl
        rw [hce] at ihe
        rw [hce, ihe]
        constructor
        · intro ⟨he, hall⟩
          refine ⟨he, ?_⟩
          intro i hi
          cases i with
          | zero => simpa using hrc
          | succ j =>
            simp only [List.getD_cons_succ]
            simp only [List.length_cons] at hi
            have := hall j (Nat.lt_of_succ_lt_succ hi)
            simpa [Nat.add_assoc, Nat.add_comm 1 j] using this
        · intro ⟨he, hall⟩
          refine ⟨he, ?_⟩
          intro j hj
          have := hall (j + 1) (Nat.succ_lt_succ hj)
          simp only [List.getD_cons_succ] at this
          simpa [Nat.add_assoc, Nat.add_comm 1 j] using this
      | some err =>
        rw [hrc] at ihe
        have hacc : combineErr e (some err) ≠ none := by
          cases e <;> simp [combineErr]
        constructor
        · intro h2
          exact absurd (ihe.mp h2).1 hacc
        · intro ⟨_, hall⟩
          have h0 := hall 0 (by simp)
          rw [List.getD_cons_zero] at h0
          rw [Nat.add_zero] at h0
          rw [hrc] at h0
          exact absurd h0 (by simp)


/-- C1: a `Recover` event with `N` remote digests issues exactly
`⌈N/100⌉` hash-query requests, each carrying `min(100, remaining)`
elements, and the issued chunks concatenate back to the original digest
sequence — every element exactly once, in order. -/
theorem requestRecovered_chunks (rc : Nat → List Nat → Option String) (rcvr : Recover) :
    ((requestRecovered rc rcvr).1.length = (rcvr.remoteElements.length + 99) / 100) ∧
    ((requestRecovered rc rcvr).1.flatten = rcvr.remoteElements) ∧
    (∀ i, i < (requestRecovered rc rcvr).1.length →
      ((requestRecovered rc rcvr).1.getD i []).length =
        min 100 (rcvr.remoteElements.length - 100 * i)) := by
  obtain ⟨hf, hl, hg⟩ := requestRecoveredLoop_trace_spec rcvr.remoteElements.length
    rcvr.remoteElements le_rfl rc 0 none
  exact ⟨hl, hf, hg⟩

theorem requestRecovered_chunks_witness :
    ((requestRecovered (fun _ _ => none) ⟨List.range 250⟩).1.length = 3) ∧
    ((requestRecovered (fun _ _ => none) ⟨List.range 250⟩).1.getD 2 []).length = 50 := by
  obtain ⟨hl, _, hg⟩ := requestRecovered_chunks (fun _ _ => none) ⟨List.range 250⟩
  have hlen : (requestRecovered (fun _ _ => none) ⟨List.range 250⟩).1.length = 3 := by
    rw [hl]; norm_num
  refine ⟨hlen, ?_⟩
  have h2 := hg 2 (by rw [hlen]; norm_num)
  rw [h2]; norm_num

/-- C2: if the round-trip for one chunk fails, the later chunks are
still attempted (the issued chunks always cover the whole digest list),
and `requestRecovered` returns an error if and only if at least one
of the chunk round-trips returned one. -/
theorem requestRecovered_error_iff (rc : Nat → List Nat → Option String)
    (rcvr : Recover) :
    ((requestRecovered rc rcvr).1.flatten = rcvr.remoteElements) ∧
    ((requestRecovered rc rcvr).2 = none ↔
      ∀ i, i < (requestRecovered rc rcvr).1.length →
        rc i ((requestRecovered rc rcvr).1.getD i []) = none) := by
  obtain ⟨hf, _, _⟩ := requestRecoveredLoop_trace_spec rcvr.remoteElements.length
    rcvr.remoteElements le_rfl rc 0 none
  have he := requestRecoveredLoop_err_spec rcvr.remoteElements.length
    rcvr.remoteElements le_rfl rc 0 none
  refine ⟨hf, ?_⟩
  rw [show (requestRecovered rc rcvr).2
      = (requestRecoveredLoop rc 0 rcvr.remoteElements none).2 from rfl]
  rw [he]
  constructor
  · intro ⟨_, hall⟩ i hi
    have := hall i hi
    simpa using this
  · intro hall
    exact ⟨rfl, fun i hi => by simpa using hall i hi⟩

theorem requestRecovered_error_iff_witness :
    (requestRecovered (fun _ _ => none) ⟨List.range 250⟩).2 = none := by
  obtain ⟨_, hiff⟩ := requestRecovered_error_iff (fun _ _ => none) ⟨List.range 250⟩
  exact hiff.mpr (fun i _ => rfl)

/-- C4: for every decoded stats snapshot (including the empty one used
for a missing or corrupt file), once the prefix-tree root reports its
element count `n`, the loaded `Stats.Total` is `n`, not the persisted
total. -/
theorem loadStats_total_from_root (decoded : Option Stats) (n : Nat) :
    (loadStats decoded (some n)).Total = n := rfl

theorem loadStats_total_from_root_witness :
    (loadStats (some { Total := 999, Hourly := fun _ => none, Daily := fun _ => none })
      (some 42)).Total = 42 :=
  loadStats_total_from_root
    (some { Total := 999, Hourly := fun _ => none, Daily := fun _ => none }) 42

/-- C5: whatever errors the teardown steps return, `Stop` executes all
four steps — cancel-and-wait, engine stop, tree close, stats save — in
source order, skipping none. -/
theorem stop_runs_all_steps (waitErr peerStopErr closeErr : Option String) :
    (Stop waitErr peerStopErr closeErr).1 =
      [StopStep.killWait, StopStep.peerStop, StopStep.ptreeClose, StopStep.saveStats] :=
  rfl

theorem stop_runs_all_steps_witness :
    (Stop (some "wait failed") (some "engine stop failed") (some "close failed")).1 =
      [StopStep.killWait, StopStep.peerStop, StopStep.ptreeClose, StopStep.saveStats] :=
  stop_runs_all_steps (some "wait failed") (some "engine stop failed") (some "close failed")

/-- C6: after `prune`, every hourly bucket strictly before `now − 24h`
and every daily bucket strictly before `now − 7d` is absent, and every
bucket within its window is exactly the bucket held before the prune. -/
theorem statsPrune_window (s : Stats) (now k : Int) :
    (k < now - 24 * 3600 → (statsPrune s now).Hourly k = none) ∧
    (now - 24 * 3600 ≤ k → (statsPrune s now).Hourly k = s.Hourly k) ∧
    (k < now - 24 * 7 * 3600 → (statsPrune s now).Daily k = none) ∧
    (now - 24 * 7 * 3600 ≤ k → (statsPrune s now).Daily k = s.Daily k) := by
  refine ⟨fun h => ?_, fun h => ?_, fun h => ?_, fun h => ?_⟩ <;>
    simp only [statsPrune] <;>
    [rw [if_pos h]; rw [if_neg (by omega)]; rw [if_pos h]; rw [if_neg (by omega)]]

theorem statsPrune_window_witness :
    ((statsPrune
        { Total := 7
          Hourly := fun k => if k = 0 then some { Inserted := 1, Updated := 2 } else none
          Daily := fun _ => none } 50000).Hourly 0 = some { Inserted := 1, Updated := 2 }) ∧
    ((statsPrune
        { Total := 7
          Hourly := fun k => if k = 0 then some { Inserted := 1, Updated := 2 } else none
          Daily := fun _ => none } 700000).Hourly 0 = none) := by
  constructor
  · exact ((statsPrune_window _ 50000 0).2.1 (by decide)).trans (by decide)
  · exact (statsPrune_window _ 700000 0).1 (by decide)

/-- C9: the digest update pipeline updates the statistics before any
digest is decoded: for every change, the stats component of the result is
exactly `Stats.update` applied to the prior stats — with `Total` bumped by
one for the added/replaced change — no matter which digests decode or
which engine calls were abandoned after a malformed digest. -/
theorem updateDigests_stats_first (now : Int) (st : Stats) (ch : KeyChange) :
    (updateDigests now st ch).1 = statsUpdate st now ch.kind ∧
    (updateDigests now st ch).1.Total = st.Total + 1 := by
  have h1 : (updateDigests now st ch).1 = statsUpdate st now ch.kind := by
    simp only [updateDigests]
    split <;> rfl
  refine ⟨h1, ?_⟩
  rw [h1]
  cases ch.kind <;> rfl

theorem updateDigests_stats_first_witness :
    (updateDigests 7200 newStats
        { kind := .added, insertDigests := ["aabbccdd"], removeDigests := ["zzzz"] }).1 =
      statsUpdate newStats 7200 .added ∧
    (updateDigests 7200 newStats
        { kind := .added, insertDigests := ["aabbccdd"], removeDigests := ["zzzz"] }).1.Total =
      newStats.Total + 1 :=
  updateDigests_stats_first 7200 newStats
    { kind := .added, insertDigests := ["aabbccdd"], removeDigests := ["zzzz"] }

/-- C10: the recovery loop processes every `Recover` event of the
schedule and discards the result of each event: whatever the round-trip
outcomes, the loop only returns on the dying signal, with no error. -/
theorem handleRecovery_never_fails (rc : Nat → List Nat → Option String)
    (events : List Recover) :
    handleRecovery rc events = (events, none) := by
  induction events with
  | nil => rfl
  | cons r rest ih => simp [handleRecovery, ih]

theorem handleRecovery_never_fails_witness :
    handleRecovery (fun _ _ => some "network unreachable") [⟨[1, 2, 3]⟩, ⟨[4]⟩] =
      ([⟨[1, 2, 3]⟩, ⟨[4]⟩], none) :=
  handleRecovery_never_fails (fun _ _ => some "network unreachable") [⟨[1, 2, 3]⟩, ⟨[4]⟩]

/-- C7: the encoded hash-query request is the integer count of elements
followed by, for each element in order, an integer length and that many
raw bytes, the raw bytes being the byte form of the element padded to the full
SKS element width and then truncated by exactly one trailing byte (so
each carries `sksZpNbytes − 1 = 16` bytes for an element of the engine
domain). -/
theorem requestChunkBody_framing (writeInt : Nat → List Nat) (chunk : List Nat) :
    (requestChunkBody writeInt chunk =
      writeInt chunk.length ++
        (chunk.map (fun z =>
          writeInt ((padSksElement (zpBytes z)).dropLast).length ++
            (padSksElement (zpBytes z)).dropLast)).flatten) ∧
    (∀ z, z ∈ chunk → z < P_SKS →
      ((padSksElement (zpBytes z)).dropLast).length = sksZpNbytes - 1) := by
  constructor
  · simp only [requestChunkBody]
    exact foldl_frame_eq writeInt chunk (writeInt chunk.length)
  · intro z _ hz
    have hlt : z < 256 ^ sksZpNbytes := by
      refine lt_of_lt_of_le hz ?_
      norm_num [P_SKS, sksZpNbytes]
    have hdl : (zpBytes z).length ≤ sksZpNbytes := digits256_length_le z _ hlt
    rw [List.length_dropLast, padSksElement_length _ hdl]

theorem requestChunkBody_framing_witness :
    ((padSksElement (zpBytes 3721182122)).dropLast).length = sksZpNbytes - 1 :=
  (requestChunkBody_framing (fun n => [n]) [3721182122]).2 3721182122 (by simp)
    (by norm_num [P_SKS])

/-- C8: for a valid hexadecimal digest (at most the 16 raw bytes of a
content hash, so that its value lies in the arithmetic domain of the engine),
building the numeric element and taking its byte representation padded to
the SKS element width returns exactly the padded decoded bytes. -/
theorem digestZp_roundtrip (s : String) (b : List Nat)
    (hdec : hexDecodeString s = some b) (hlen : b.length ≤ 16) :
    ∃ z, DigestZp s = .ok z ∧ padSksElement (zpBytes z) = padSksElement b := by
  have hbytes : ∀ x ∈ b, x < 256 := hexDecodeList_bytes_lt s.data b hdec
  refine ⟨zbValue (padSksElement b), ?_, ?_⟩
  · simp only [DigestZp, hdec]
  · have h1 : leVal (padSksElement b) = leVal b := leVal_pad b
    have h2 : leVal b < 256 ^ b.length := Nat.ofDigits_lt_base_pow_length (by norm_num) hbytes
    have h3 : (256 : ℕ) ^ b.length ≤ 256 ^ 16 := Nat.pow_le_pow_right (by norm_num) hlen
    have h4 : (256 : ℕ) ^ 16 < P_SKS := by norm_num [P_SKS]
    have hz : zbValue (padSksElement b) = leVal b := by
      rw [zbValue, h1]
      exact Nat.mod_eq_of_lt (by omega)
    rw [hz]
    have hdigitsLt : ∀ x ∈ zpBytes (leVal b), x < 256 :=
      fun x hx => Nat.digits_lt_base (by norm_num) hx
    have hdlen : (zpBytes (leVal b)).length ≤ sksZpNbytes := by
      refine digits256_length_le _ _ ?_
      calc leVal b < 256 ^ b.length := h2
        _ ≤ 256 ^ 16 := h3
        _ ≤ 256 ^ sksZpNbytes := Nat.pow_le_pow_right (by norm_num) (by norm_num [sksZpNbytes])
    have hblen : b.length ≤ sksZpNbytes := hlen.trans (by norm_num [sksZpNbytes])
    refine ofDigits256_inj_of_length_eq _ _ ?_ ?_ ?_ ?_
    · rw [padSksElement_length _ hdlen, padSksElement_length _ hblen]
    · exact padSksElement_bytes_lt _ hdigitsLt
    · exact padSksElement_bytes_lt _ hbytes
    · have h5 : Nat.ofDigits 256 (padSksElement (zpBytes (leVal b))) = leVal b := by
        have := leVal_pad (zpBytes (leVal b))
        rw [leVal] at this
        rw [this]
        exact Nat.ofDigits_digits 256 (leVal b)
      have h6 : Nat.ofDigits 256 (padSksElement b) = leVal b := leVal_pad b
      rw [h5, h6]

theorem digestZp_roundtrip_witness :
    ∃ z, DigestZp "aabbccdd" = .ok z ∧
      padSksElement (zpBytes z) = padSksElement [170, 187, 204, 221] :=
  digestZp_roundtrip "aabbccdd" [170, 187, 204, 221] (by decide) (by decide)

/-- C3: when the insert or remove digest list of a change contains a
non-hexadecimal string, `updateDigests` returns the malformed-digest
error for the first failing decode, the engine receives a call for
exactly the digests before the failure (inserts first, then — only when
the whole insert list decoded — the removes before the failure), and no
call for any digest at or after the failure; the earlier calls are not
rolled back. -/
theorem updateDigests_malformed (now : Int) (st : Stats) (ch : KeyChange)
    (hbad : (ch.insertDigests ++ ch.removeDigests).all
      (fun d => (DigestZp d).isOk) = false) :
    ((updateDigests now st ch).2.2 =
      some ("bad digest " ++
        (((ch.insertDigests ++ ch.removeDigests).dropWhile
          fun d => (DigestZp d).isOk).headD ""))) ∧
    ((updateDigests now st ch).2.1 =
      ((ch.insertDigests.takeWhile fun d => (DigestZp d).isOk).map
        (fun d => EngineOp.insert ((DigestZp d).toOption.getD 0))) ++
      (if ch.insertDigests.all (fun d => (DigestZp d).isOk) = true then
        ((ch.removeDigests.takeWhile fun d => (DigestZp d).isOk).map
          (fun d => EngineOp.remove ((DigestZp d).toOption.getD 0)))
       else [])) := by
  rw [List.all_append] at hbad
  cases hins : ch.insertDigests.all (fun d => (DigestZp d).isOk) with
  | false =>
    have hne := dropWhile_ne_nil_of_not_all (fun d => (DigestZp d).isOk)
      ch.insertDigests hins
    rw [dropWhile_append_of_not_all _ _ _ hins, headD_append_of_ne_nil _ _ _ hne]
    simp [updateDigests, applyDigests_spec, hins]
  | true =>
    have hrem : ch.removeDigests.all (fun d => (DigestZp d).isOk) = false := by
      rw [hins] at hbad
      simpa using hbad
    rw [dropWhile_append_of_all _ _ _ hins]
    simp [updateDigests, applyDigests_spec, hins, hrem]

theorem updateDigests_malformed_witness :
    ((updateDigests 0 newStats
        { kind := .added, insertDigests := ["aabbccdd"], removeDigests := ["zzzz"] }).2.2 =
      some "bad digest zzzz") ∧
    ((updateDigests 0 newStats
        { kind := .added, insertDigests := ["aabbccdd"], removeDigests := ["zzzz"] }).2.1 =
      [EngineOp.insert 3721182122]) := by
  have h := updateDigests_malformed 0 newStats
    { kind := .added, insertDigests := ["aabbccdd"], removeDigests := ["zzzz"] }
    (by decide)
  obtain ⟨h1, h2⟩ := h
  constructor
  · rw [h1]; decide
  · rw [h2]; decide

end SksRecon
